import Mathlib

/-
Verification development for the Search-terms-analyser front-end
(src/index.tsx). The definitions below are a shallow embedding of the
parts of the source the claims are about:

 - a JSON value model and an executable parser mirroring the semantics of
   the JavaScript JSON.parse as exercised by the source (object / array /
   string / number / bool / null grammar, last-duplicate-key-wins lookup,
   leading-zero and trailing-content rejection);
 - tryParseAndDisplay (src/index.tsx lines 197-210): brace filter, JSON
   decode inside a try/catch, truthiness check of the term and category
   fields, console.warn modelled as a returned warning list;
 - the streaming decode loop of handleAnalyzeClick (lines 155-169):
   chunk accumulation into a buffer, repeated extraction of the text
   before the first newline, trim, decode, and the end-of-stream flush;
 - getBusinessContext (lines 72-101): markdown fence stripping, JSON
   decode, truthiness defaulting of the location / competitors / services
   keys; a thrown exception is modelled as Except.error;
 - the context-selection steps of handleAnalyzeClick (lines 112-140);
 - the CSV export of handleCopyCsvClick (lines 328-338).

Strings are modelled as List Char. Exceptions are modelled with Except;
machine floating point is not modelled: a JSON number is kept as its
exact decimal mantissa and exponent, and its JavaScript truthiness is
taken to be mantissa nonzero.
-/

/-- Model of a JavaScript JSON value as produced by JSON.parse. A number
is stored exactly as sign, decimal mantissa and decimal exponent; an
object keeps its members in source order (duplicate keys possible). -/
inductive Json where
  | null : Json
  | bool (b : Bool) : Json
  | num (neg : Bool) (mantissa : Nat) (exponent : Int) : Json
  | str (chars : List Char) : Json
  | arr (items : List Json) : Json
  | obj (members : List (List Char × Json)) : Json

/-- Characters removed by the JavaScript String.prototype.trim: the
ECMAScript WhiteSpace and LineTerminator sets. -/
def jsWhitespace (c : Char) : Bool :=
  c = ' ' || c = '\t' || c = '\n' || c = '\r' || c.val = 11 || c.val = 12 ||
  c.val = 0xA0 || c.val = 0xFEFF || c.val = 0x1680 ||
  (0x2000 ≤ c.val && c.val ≤ 0x200A) ||
  c.val = 0x2028 || c.val = 0x2029 || c.val = 0x202F || c.val = 0x205F ||
  c.val = 0x3000

/-- Whitespace characters of the JSON grammar (RFC 8259), the ones
skipped by JSON.parse between tokens. -/
def jsonWhitespace (c : Char) : Bool :=
  c = ' ' || c = '\t' || c = '\n' || c = '\r'

/-- JavaScript String.prototype.trim: drop jsWhitespace from both ends. -/
def trim (s : List Char) : List Char :=
  ((s.dropWhile jsWhitespace).reverse.dropWhile jsWhitespace).reverse

/-- Skip JSON whitespace at the front of the input, as JSON.parse does
between tokens. -/
def skipWs : List Char → List Char
  | [] => []
  | c :: cs => if jsonWhitespace c then skipWs cs else c :: cs

/-- Numeric value of a hexadecimal digit, for \u escapes. -/
def hexDigit? (c : Char) : Option Nat :=
  if '0' ≤ c ∧ c ≤ '9' then some (c.toNat - 48)
  else if 'a' ≤ c ∧ c ≤ 'f' then some (c.toNat - 87)
  else if 'A' ≤ c ∧ c ≤ 'F' then some (c.toNat - 55)
  else none

/-- Single-character JSON string escapes. -/
def escapeChar? (c : Char) : Option Char :=
  if c = '"' then some '"'
  else if c = '\\' then some '\\'
  else if c = '/' then some '/'
  else if c = 'b' then some (Char.ofNat 8)
  else if c = 'f' then some (Char.ofNat 12)
  else if c = 'n' then some '\n'
  else if c = 'r' then some '\r'
  else if c = 't' then some '\t'
  else none

/-- Body of a JSON string literal, after the opening quote: decoded
characters plus the rest of the input after the closing quote. Unescaped
control characters are rejected, as JSON.parse rejects them. The fuel
only needs to cover the input length. -/
def parseStringBody : Nat → List Char → Option (List Char × List Char)
  | 0, _ => none
  | _ + 1, [] => none
  | fuel + 1, c :: cs =>
    if c = '"' then some ([], cs)
    else if c = '\\' then
      match cs with
      | [] => none
      | e :: cs2 =>
        if e = 'u' then
          match cs2 with
          | h1 :: h2 :: h3 :: h4 :: cs3 =>
            match hexDigit? h1, hexDigit? h2, hexDigit? h3, hexDigit? h4 with
            | some a, some b, some d, some g =>
              match parseStringBody fuel cs3 with
              | some (tail, rest) =>
                  some (Char.ofNat (((a * 16 + b) * 16 + d) * 16 + g) :: tail, rest)
              | none => none
            | _, _, _, _ => none
          | _ => none
        else
          match escapeChar? e with
          | some ec =>
            match parseStringBody fuel cs2 with
            | some (tail, rest) => some (ec :: tail, rest)
            | none => none
          | none => none
    else if c.val < 32 then none
    else
      match parseStringBody fuel cs with
      | some (tail, rest) => some (c :: tail, rest)
      | none => none

/-- Numeric value of a decimal digit. -/
def digitVal? (c : Char) : Option Nat :=
  if '0' ≤ c ∧ c ≤ '9' then some (c.toNat - 48) else none

/-- Take the maximal run of decimal digits at the front of the input. -/
def takeDigits : List Char → List Nat × List Char
  | [] => ([], [])
  | c :: cs =>
    match digitVal? c with
    | some d =>
      match takeDigits cs with
      | (ds, r) => (d :: ds, r)
    | none => ([], c :: cs)

/-- Value of a list of decimal digits, most significant first. -/
def digitsToNat (ds : List Nat) : Nat :=
  ds.foldl (fun a d => a * 10 + d) 0

/-- Optional leading minus sign of a JSON number. -/
def parseSign (s : List Char) : Bool × List Char :=
  match s with
  | c :: t => if c = '-' then (true, t) else (false, c :: t)
  | [] => (false, [])

/-- Integer part of a JSON number: a single 0, or a nonzero digit
followed by digits (the JSON grammar forbids other leading zeros). -/
def parseIntDigits (s : List Char) : Option (List Nat × List Char) :=
  match s with
  | c :: t =>
    if c = '0' then some ([0], t)
    else
      match takeDigits (c :: t) with
      | ([], _) => none
      | (ds, r) => some (ds, r)
  | [] => none

/-- Fractional part of a JSON number; if the dot is not followed by a
digit it is left unconsumed (the surrounding context then rejects it,
matching the JSON.parse error). -/
def parseFrac (s : List Char) : List Nat × List Char :=
  match s with
  | c :: t =>
    if c = '.' then
      match takeDigits t with
      | ([], _) => ([], c :: t)
      | (ds, r) => (ds, r)
    else ([], c :: t)
  | [] => ([], [])

/-- Digits of an exponent with an already-consumed sign. -/
def parseExpDigits (sgn : Int) (u : List Char) : Option (Int × List Char) :=
  match takeDigits u with
  | ([], _) => none
  | (ds, r) => some (sgn * (digitsToNat ds : Int), r)

/-- Exponent body after the e or E marker. -/
def parseExpAfterE (t : List Char) : Option (Int × List Char) :=
  match t with
  | c :: u =>
    if c = '+' then parseExpDigits 1 u
    else if c = '-' then parseExpDigits (-1) u
    else parseExpDigits 1 (c :: u)
  | [] => parseExpDigits 1 []

/-- Optional exponent part of a JSON number; a bare marker with no
digits is left unconsumed for the context to reject. -/
def parseExp (s : List Char) : Int × List Char :=
  match s with
  | e :: t =>
    if e = 'e' || e = 'E' then
      match parseExpAfterE t with
      | some (v, r) => (v, r)
      | none => (0, s)
    else (0, s)
  | [] => (0, [])

/-- A JSON number literal at the front of the input. -/
def parseNumber (s : List Char) : Option (Json × List Char) :=
  match parseSign s with
  | (neg, s1) =>
    match parseIntDigits s1 with
    | none => none
    | some (intDs, s2) =>
      match parseFrac s2 with
      | (fracDs, s3) =>
        match parseExp s3 with
        | (expVal, s4) =>
          some (Json.num neg
                  (digitsToNat intDs * 10 ^ fracDs.length + digitsToNat fracDs)
                  (expVal - (fracDs.length : Int)), s4)

mutual

/-- A JSON element: value surrounded by optional whitespace, as in the
JSON grammar used by JSON.parse. -/
def parseElement : Nat → List Char → Option (Json × List Char)
  | 0, _ => none
  | fuel + 1, s =>
    match parseRawValue fuel (skipWs s) with
    | some (v, r) => some (v, skipWs r)
    | none => none

/-- A JSON value starting at the first character of the input. The head
character selects the production exactly as the JSON grammar does; true,
false and null are matched literally, and anything else is tried as a
number. -/
def parseRawValue : Nat → List Char → Option (Json × List Char)
  | 0, _ => none
  | fuel + 1, s =>
    match s with
    | [] => none
    | c :: rest =>
      if c = '{' then
        if (skipWs rest).head? = some '}' then some (Json.obj [], (skipWs rest).tail)
        else
          match parseObjMembers fuel rest with
          | some (ms, r2) => some (Json.obj ms, r2)
          | none => none
      else if c = '[' then
        if (skipWs rest).head? = some ']' then some (Json.arr [], (skipWs rest).tail)
        else
          match parseArrItems fuel rest with
          | some (vs, r2) => some (Json.arr vs, r2)
          | none => none
      else if c = '"' then
        match parseStringBody (rest.length + 1) rest with
        | some (cs, r2) => some (Json.str cs, r2)
        | none => none
      else if ("true".toList).isPrefixOf (c :: rest) then
        some (Json.bool true, (c :: rest).drop 4)
      else if ("false".toList).isPrefixOf (c :: rest) then
        some (Json.bool false, (c :: rest).drop 5)
      else if ("null".toList).isPrefixOf (c :: rest) then
        some (Json.null, (c :: rest).drop 4)
      else parseNumber (c :: rest)

/-- One or more comma-separated array items followed by the closing
bracket. -/
def parseArrItems : Nat → List Char → Option (List Json × List Char)
  | 0, _ => none
  | fuel + 1, s =>
    match parseElement fuel s with
    | none => none
    | some (v, r) =>
      match r with
      | c :: r2 =>
        if c = ',' then
          match parseArrItems fuel r2 with
          | some (vs, r3) => some (v :: vs, r3)
          | none => none
        else if c = ']' then some ([v], r2)
        else none
      | [] => none

/-- One or more comma-separated object members followed by the closing
brace. -/
def parseObjMembers : Nat → List Char → Option (List (List Char × Json) × List Char)
  | 0, _ => none
  | fuel + 1, s =>
    match skipWs s with
    | c :: rest =>
      if c = '"' then
        match parseStringBody (rest.length + 1) rest with
        | some (key, r1) =>
          match skipWs r1 with
          | c2 :: r2 =>
            if c2 = ':' then
              match parseElement fuel r2 with
              | none => none
              | some (v, r3) =>
                match r3 with
                | c3 :: r4 =>
                  if c3 = ',' then
                    match parseObjMembers fuel r4 with
                    | some (ms, r5) => some ((key, v) :: ms, r5)
                    | none => none
                  else if c3 = '}' then some ([(key, v)], r4)
                  else none
                | [] => none
            else none
          | [] => none
        | none => none
      else none
    | [] => none

end

/-- JSON.parse on a whole string: parse one element and require that
nothing but whitespace remains. The fuel 4 * length + 8 dominates the
recursion depth, which consumes at least one character every four
levels. An error models the thrown SyntaxError. -/
def jsonParse (s : List Char) : Except Unit Json :=
  match parseElement (4 * s.length + 8) s with
  | some (v, []) => Except.ok v
  | _ => Except.error ()

/-- JavaScript truthiness of a JSON value: null, false, zero and the
empty string are falsy; every array and object is truthy. -/
def jsTruthy : Json → Bool
  | Json.null => false
  | Json.bool b => b
  | Json.num _ mantissa _ => mantissa != 0
  | Json.str s => !s.isEmpty
  | Json.arr _ => true
  | Json.obj _ => true

/-- Truthiness of a possibly-undefined value (undefined is falsy). -/
def jsTruthyOpt : Option Json → Bool
  | none => false
  | some v => jsTruthy v

/-- Value of the last member with the given key, matching the JavaScript
rule that a later duplicate key in a JSON object literal overwrites an
earlier one. -/
def lookupLast : List (List Char × Json) → List Char → Option Json
  | [], _ => none
  | (k, v) :: rest, key =>
    match lookupLast rest key with
    | some r => some r
    | none => if k = key then some v else none

/-- JavaScript property read value.key: throws (error) on null, is the
member value or undefined (none) on an object, and undefined on any
other primitive or array, for the keys used by the source. -/
def jsMember : Json → List Char → Except Unit (Option Json)
  | Json.null, _ => Except.error ()
  | Json.obj ms, key => Except.ok (lookupLast ms key)
  | _, _ => Except.ok none

/-- Property read for an expression already guarded against null. -/
def jsGet : Json → List Char → Option Json
  | Json.obj ms, key => lookupLast ms key
  | _, _ => none

/-- The JavaScript expression v || d: v when truthy, otherwise the
default, with an absent property (undefined) falsy. -/
def jsOrDefault (v : Option Json) (d : Json) : Json :=
  match v with
  | some x => if jsTruthy x then x else d
  | none => d

def termKey : List Char := "term".toList

def categoryKey : List Char := "category".toList

/-- Test line.startsWith of the one-character string brace. -/
def startsWithBrace (line : List Char) : Bool :=
  line.head? = some '{'

/-- Test line.endsWith of the one-character string brace. -/
def endsWithBrace (line : List Char) : Bool :=
  line.getLast? = some '}'

/-- Body of the try block of tryParseAndDisplay (src/index.tsx 197-210):
the brace filter builds sanitizedLine, an empty sanitizedLine returns
with no record, then JSON.parse and the short-circuit truthiness check
item.term && item.category decide whether the record is surfaced. An
error is a thrown exception reaching the catch. -/
def tryParseBody (line : List Char) : Except Unit (List Json) :=
  let sanitizedLine := if startsWithBrace line && endsWithBrace line then line else []
  if sanitizedLine.isEmpty then Except.ok []
  else
    match jsonParse sanitizedLine with
    | Except.error e => Except.error e
    | Except.ok item =>
      match jsMember item termKey with
      | Except.error e => Except.error e
      | Except.ok t =>
        if jsTruthyOpt t then
          match jsMember item categoryKey with
          | Except.error e => Except.error e
          | Except.ok c =>
            if jsTruthyOpt c then Except.ok [item] else Except.ok []
        else Except.ok []

/-- tryParseAndDisplay (src/index.tsx 197-210): the catch turns any
thrown exception into a console.warn, modelled as the second component;
the first component is the list of records surfaced to the table. -/
def tryParseAndDisplay (line : List Char) : List Json × List (List Char) :=
  match tryParseBody line with
  | Except.ok out => (out, [])
  | Except.error _ => ([], [line])

/-- buffer.indexOf of the newline plus the two substring calls of the
loop body (src/index.tsx 159-161): the text before the first newline and
the text after it, or none when no newline is present. -/
def splitFirstNewline : List Char → Option (List Char × List Char)
  | [] => none
  | c :: rest =>
    if c = '\n' then some ([], rest)
    else
      match splitFirstNewline rest with
      | some (pre, post) => some (c :: pre, post)
      | none => none

/-- Records surfaced for one extracted line: trim, skip if empty,
otherwise tryParseAndDisplay (src/index.tsx 160-164). -/
def emitLine (pre : List Char) : List Json :=
  let line := trim pre
  if line.isEmpty then [] else (tryParseAndDisplay line).1

/-- The inner while loop of the stream reader (src/index.tsx 158-165),
written with explicit fuel: every iteration removes the extracted line
and its newline from the buffer, so a fuel of the buffer length bounds
the iteration count. -/
def drainLoop : Nat → List Char → List Json × List Char
  | 0, buffer => ([], buffer)
  | fuel + 1, buffer =>
    match splitFirstNewline buffer with
    | none => ([], buffer)
    | some (pre, post) =>
      match drainLoop fuel post with
      | (rs, b) => (emitLine pre ++ rs, b)

/-- The inner while loop run to exhaustion on a buffer. -/
def drainBuffer (buffer : List Char) : List Json × List Char :=
  drainLoop buffer.length buffer

/-- One arrival of a chunk (src/index.tsx 156-165): append chunk.text to
the buffer and drain all complete lines. -/
def streamStep (buffer chunkText : List Char) : List Json × List Char :=
  drainBuffer (buffer ++ chunkText)

/-- The streamed decode loop of handleAnalyzeClick (src/index.tsx
155-169) from a given buffer state: process each chunk in arrival
order, and at end of stream flush the trimmed remainder through
tryParseAndDisplay when it is nonempty. Returns the records surfaced in
order. -/
def streamLoop : List Char → List (List Char) → List Json
  | buffer, [] =>
    if (trim buffer).isEmpty then [] else (tryParseAndDisplay (trim buffer)).1
  | buffer, chunk :: rest =>
    match streamStep buffer chunk with
    | (rs, b) => rs ++ streamLoop b rest

/-- The whole streamed decode of one analysis run, from the empty
buffer. -/
def handleAnalyzeStream (chunks : List (List Char)) : List Json :=
  streamLoop [] chunks

/-- Records surfaced inside the chunk loop only, without the
end-of-stream flush. -/
def streamLoopRecords : List Char → List (List Char) → List Json
  | _, [] => []
  | buffer, chunk :: rest =>
    match streamStep buffer chunk with
    | (rs, b) => rs ++ streamLoopRecords b rest

/-- Buffer contents left when the upstream stream ends. -/
def streamFinalBuffer : List Char → List (List Char) → List Char
  | buffer, [] => buffer
  | buffer, chunk :: rest => streamFinalBuffer (streamStep buffer chunk).2 rest

/-- Concatenation of the streamed chunks. -/
def joinChunks : List (List Char) → List Char
  | [] => []
  | c :: cs => c ++ joinChunks cs

/-- First replace call of getBusinessContext (src/index.tsx 92): remove
the leftmost occurrence of three backticks followed by the word json and
an optional newline (the regex is greedy, so the newline is taken when
present). -/
def replaceFirstJsonFence : List Char → List Char
  | [] => []
  | c :: rest =>
    if ("\x60\x60\x60json".toList).isPrefixOf (c :: rest) then
      match (c :: rest).drop 7 with
      | '\n' :: t => t
      | after => after
    else c :: replaceFirstJsonFence rest

/-- Second replace call of getBusinessContext (src/index.tsx 92): remove
the leftmost occurrence of three backticks. -/
def replaceFirstBackticks : List Char → List Char
  | [] => []
  | c :: rest =>
    if ("\x60\x60\x60".toList).isPrefixOf (c :: rest) then (c :: rest).drop 3
    else c :: replaceFirstBackticks rest

/-- The cleanJsonText expression of getBusinessContext (src/index.tsx
92): strip the fences, then trim. -/
def cleanJsonText (responseText : List Char) : List Char :=
  trim (replaceFirstBackticks (replaceFirstJsonFence responseText))

def locationKey : List Char := "location".toList

def competitorsKey : List Char := "competitors".toList

def servicesKey : List Char := "services".toList

/-- BusinessContext as built by the source; each field holds whatever
JSON value the defaulting expression produced. -/
structure BusinessContext where
  location : Json
  competitors : Json
  services : Json

/-- getBusinessContext (src/index.tsx 72-101). The argument is the
outcome of the upstream API call: a thrown call is error, a response is
ok with its text. The response text is fence-stripped and trimmed, then
JSON.parse runs (a throw propagates), then each field is read with the
defaulting pattern parsed.key or default; reading a property of a parsed
null throws, which also propagates to the caller. -/
def getBusinessContext (apiResponse : Except Unit (List Char)) :
    Except Unit BusinessContext :=
  match apiResponse with
  | Except.error e => Except.error e
  | Except.ok responseText =>
    match jsonParse (cleanJsonText responseText) with
    | Except.error e => Except.error e
    | Except.ok parsed =>
      match parsed with
      | Json.null => Except.error ()
      | _ => Except.ok
          { location := jsOrDefault (jsGet parsed locationKey) (Json.str [])
          , competitors := jsOrDefault (jsGet parsed competitorsKey) (Json.arr [])
          , services := jsOrDefault (jsGet parsed servicesKey) (Json.arr []) }

/-- Context-selection steps of handleAnalyzeClick (src/index.tsx
112-140): trim both inputs, report a configuration error when both are
empty, resolve the context from the website only when a URL was given (a
failed resolution aborts), overwrite only the location field when a
manual location was given, and finally reject a falsy location. -/
def analyzeContext (urlValue manualValue : List Char)
    (apiContext : Except Unit BusinessContext) : Except Unit BusinessContext :=
  let websiteUrl := trim urlValue
  let manualLocation := trim manualValue
  if websiteUrl.isEmpty && manualLocation.isEmpty then Except.error ()
  else
    let base :=
      if websiteUrl.isEmpty then
        Except.ok ⟨Json.str [], Json.arr [], Json.arr []⟩
      else apiContext
    match base with
    | Except.error e => Except.error e
    | Except.ok context =>
      let context :=
        if manualLocation.isEmpty then context
        else { context with location := Json.str manualLocation }
      if jsTruthy context.location then Except.ok context else Except.error ()

/-- Replace every double quote by two double quotes, the
replace(/"/g, twice) call of handleCopyCsvClick (src/index.tsx 334). -/
def escapeQuotes : List Char → List Char
  | [] => []
  | c :: cs =>
    if c = '"' then '"' :: '"' :: escapeQuotes cs else c :: escapeQuotes cs

/-- A header cell of the export: the text wrapped in double quotes
(src/index.tsx 332). -/
def csvHeaderCell (s : List Char) : List Char :=
  '"' :: s ++ ['"']

/-- A data cell of the export: quotes doubled, then wrapped in double
quotes (src/index.tsx 334). -/
def csvCell (s : List Char) : List Char :=
  '"' :: escapeQuotes s ++ ['"']

/-- Array.prototype.join with a separator. -/
def joinWith (sep : List Char) : List (List Char) → List Char
  | [] => []
  | [x] => x
  | x :: xs => x ++ sep ++ joinWith sep xs

/-- A data row of the export: cells joined with commas
(src/index.tsx 333-334). -/
def csvRow (cells : List (List Char)) : List Char :=
  joinWith [','] (cells.map csvCell)

/-- handleCopyCsvClick CSV text (src/index.tsx 332-337): quoted header
row, then one row per record, joined with newlines. -/
def handleCopyCsv (headers : List (List Char))
    (rows : List (List (List Char))) : List Char :=
  joinWith ['\n'] (joinWith [','] (headers.map csvHeaderCell) :: rows.map csvRow)

/-! Basic facts about whitespace, trim and skipWs. -/

theorem jsonWhitespace_imp (c : Char) (h : jsonWhitespace c = true) :
    jsWhitespace c = true := by
  simp only [jsonWhitespace, Bool.or_eq_true, decide_eq_true_eq] at h
  rcases h with ((h | h) | h) | h <;>
    simp [jsWhitespace, h]

theorem head?_dropWhile_not {p : Char → Bool} :
    ∀ {l : List Char} {c : Char}, (l.dropWhile p).head? = some c → p c = false := by
  intro l
  induction l with
  | nil => intro c h; simp [List.dropWhile] at h
  | cons a t ih =>
    intro c h
    rw [List.dropWhile_cons] at h
    by_cases hp : p a = true
    · rw [if_pos hp] at h; exact ih h
    · rw [if_neg hp] at h
      simp only [List.head?_cons, Option.some.injEq] at h
      subst h
      exact Bool.eq_false_iff.mpr hp

theorem trim_head_not_ws {s : List Char} {c : Char}
    (h : (trim s).head? = some c) : jsWhitespace c = false := by
  unfold trim at h
  rw [List.head?_reverse] at h
  rcases List.dropWhile_suffix (l := (s.dropWhile jsWhitespace).reverse)
      jsWhitespace with ⟨pre, hpre⟩
  have h2 : (s.dropWhile jsWhitespace).reverse.getLast? = some c := by
    rw [← hpre, List.getLast?_append, h]; rfl
  rw [List.getLast?_reverse] at h2
  exact head?_dropWhile_not h2

theorem trim_getLast_not_ws {s : List Char} {c : Char}
    (h : (trim s).getLast? = some c) : jsWhitespace c = false := by
  unfold trim at h
  rw [List.getLast?_reverse] at h
  exact head?_dropWhile_not h

theorem skipWs_decomp (s : List Char) : ∃ p, s = p ++ skipWs s := by
  induction s with
  | nil => exact ⟨[], rfl⟩
  | cons c cs ih =>
    rw [skipWs]
    by_cases h : jsonWhitespace c = true
    · rw [if_pos h]
      rcases ih with ⟨p, hp⟩
      exact ⟨c :: p, by rw [List.cons_append, ← hp]⟩
    · rw [if_neg h]; exact ⟨[], rfl⟩

theorem skipWs_eq_self {s : List Char}
    (h : ∀ c, s.head? = some c → jsWhitespace c = false) : skipWs s = s := by
  cases s with
  | nil => rfl
  | cons c cs =>
    rw [skipWs]
    have hc := h c rfl
    have : jsonWhitespace c = false := by
      cases hj : jsonWhitespace c
      · rfl
      · rw [jsonWhitespace_imp c hj] at hc; cases hc
    rw [this]
    simp

theorem skipWs_nil_ws : ∀ {s : List Char}, skipWs s = [] →
    ∀ c ∈ s, jsonWhitespace c = true := by
  intro s
  induction s with
  | nil => intro _ c hc; cases hc
  | cons a t ih =>
    intro h c hc
    rw [skipWs] at h
    by_cases ha : jsonWhitespace a = true
    · rw [if_pos ha] at h
      rcases List.mem_cons.mp hc with hc | hc
      · exact hc ▸ ha
      · exact ih h c hc
    · rw [if_neg ha] at h; cases h

/-! Facts about the newline scanner and the buffer-draining loop. -/

theorem splitFirstNewline_none : ∀ {buf : List Char},
    splitFirstNewline buf = none → '\n' ∉ buf := by
  intro buf
  induction buf with
  | nil => intro _ h; cases h
  | cons c cs ih =>
    intro h hm
    rw [splitFirstNewline] at h
    by_cases hc : c = '\n'
    · rw [if_pos hc] at h; cases h
    · rw [if_neg hc] at h
      rcases List.mem_cons.mp hm with hm | hm
      · exact hc hm.symm
      · rcases hx : splitFirstNewline cs with _ | ⟨pre, post⟩
        · exact ih hx hm
        · rw [hx] at h; cases h

theorem splitFirstNewline_of_not_mem : ∀ {buf : List Char},
    '\n' ∉ buf → splitFirstNewline buf = none := by
  intro buf
  induction buf with
  | nil => intro _; rfl
  | cons c cs ih =>
    intro h
    rw [splitFirstNewline]
    have hc : ¬(c = '\n') := fun hh => h (hh ▸ List.mem_cons_self c cs)
    rw [if_neg hc, ih (fun hm => h (List.mem_cons_of_mem c hm))]

theorem splitFirstNewline_decomp : ∀ {buf pre post : List Char},
    splitFirstNewline buf = some (pre, post) → buf = pre ++ '\n' :: post := by
  intro buf
  induction buf with
  | nil => intro pre post h; cases h
  | cons c cs ih =>
    intro pre post h
    rw [splitFirstNewline] at h
    by_cases hc : c = '\n'
    · rw [if_pos hc] at h
      injection h with h
      injection h with h1 h2
      subst hc; subst h1; subst h2; rfl
    · rw [if_neg hc] at h
      rcases hx : splitFirstNewline cs with _ | ⟨pre2, post2⟩
      · rw [hx] at h; cases h
      · rw [hx] at h
        injection h with h
        injection h with h1 h2
        subst h2
        have := ih hx
        rw [← h1, this]; rfl

theorem splitFirstNewline_length {buf pre post : List Char}
    (h : splitFirstNewline buf = some (pre, post)) :
    post.length < buf.length := by
  rw [splitFirstNewline_decomp h]
  simp only [List.length_append, List.length_cons]
  omega

theorem splitFirstNewline_append {x pre post : List Char}
    (h : splitFirstNewline x = some (pre, post)) (y : List Char) :
    splitFirstNewline (x ++ y) = some (pre, post ++ y) := by
  induction x generalizing pre with
  | nil => cases h
  | cons c cs ih =>
    rw [splitFirstNewline] at h
    rw [List.cons_append, splitFirstNewline]
    by_cases hc : c = '\n'
    · rw [if_pos hc] at h ⊢
      injection h with h
      injection h with h1 h2
      subst h1; subst h2; rfl
    · rw [if_neg hc] at h ⊢
      rcases hx : splitFirstNewline cs with _ | ⟨pre2, post2⟩
      · rw [hx] at h; cases h
      · rw [hx] at h
        injection h with h
        injection h with h1 h2
        subst h2; subst h1
        simp only [ih hx]

theorem drainLoop_split_none {buf : List Char}
    (h : splitFirstNewline buf = none) (f : Nat) :
    drainLoop f buf = ([], buf) := by
  cases f with
  | zero => rfl
  | succ g => rw [drainLoop, h]

theorem drainLoop_mono : ∀ f g buf, buf.length ≤ f → buf.length ≤ g →
    drainLoop f buf = drainLoop g buf := by
  intro f
  induction f with
  | zero =>
    intro g buf hf _
    have hb : buf = [] := List.length_eq_zero.mp (Nat.le_zero.mp hf)
    subst hb
    have h0 : splitFirstNewline ([] : List Char) = none := rfl
    rw [drainLoop_split_none h0, drainLoop_split_none h0]
  | succ f ih =>
    intro g buf hf hg
    rcases hx : splitFirstNewline buf with _ | ⟨pre, post⟩
    · rw [drainLoop_split_none hx, drainLoop_split_none hx]
    · have hlen := splitFirstNewline_length hx
      have hbuf : buf ≠ [] := by
        intro hb; subst hb; cases hx
      cases g with
      | zero =>
        exact absurd (List.length_eq_zero.mp (Nat.le_zero.mp hg)) hbuf
      | succ g =>
        simp only [drainLoop, hx]
        rw [ih g post (by omega) (by omega)]

theorem drainLoop_eq_drainBuffer {f : Nat} {buf : List Char}
    (h : buf.length ≤ f) : drainLoop f buf = drainBuffer buf :=
  drainLoop_mono f buf.length buf h (Nat.le_refl _)

theorem drainBuffer_none {buf : List Char}
    (h : splitFirstNewline buf = none) : drainBuffer buf = ([], buf) :=
  drainLoop_split_none h _

theorem drainBuffer_some {buf pre post : List Char}
    (h : splitFirstNewline buf = some (pre, post)) :
    drainBuffer buf =
      (emitLine pre ++ (drainBuffer post).1, (drainBuffer post).2) := by
  cases buf with
  | nil => cases h
  | cons c cs =>
    have hlen := splitFirstNewline_length h
    have hle : post.length ≤ cs.length := by
      simp only [List.length_cons] at hlen; omega
    unfold drainBuffer
    simp only [List.length_cons, drainLoop, h]
    rw [drainLoop_mono cs.length post.length post hle (Nat.le_refl _)]

theorem drainBuffer_no_newline : ∀ n (buf : List Char), buf.length ≤ n →
    '\n' ∉ (drainBuffer buf).2 := by
  intro n
  induction n with
  | zero =>
    intro buf h
    have hb : buf = [] := List.length_eq_zero.mp (Nat.le_zero.mp h)
    subst hb
    have h0 : splitFirstNewline ([] : List Char) = none := rfl
    rw [drainBuffer_none h0]
    exact List.not_mem_nil _
  | succ n ih =>
    intro buf h
    rcases hx : splitFirstNewline buf with _ | ⟨pre, post⟩
    · rw [drainBuffer_none hx]
      exact splitFirstNewline_none hx
    · rw [drainBuffer_some hx]
      have := splitFirstNewline_length hx
      exact ih post (by omega)

theorem drainBuffer_append : ∀ n (x : List Char), x.length ≤ n → ∀ y,
    drainBuffer (x ++ y) =
      ((drainBuffer x).1 ++ (drainBuffer ((drainBuffer x).2 ++ y)).1,
        (drainBuffer ((drainBuffer x).2 ++ y)).2) := by
  intro n
  induction n with
  | zero =>
    intro x hx y
    have hxe : x = [] := List.length_eq_zero.mp (Nat.le_zero.mp hx)
    subst hxe
    have h0 : splitFirstNewline ([] : List Char) = none := rfl
    rw [drainBuffer_none h0]
    simp
  | succ n ih =>
    intro x hx y
    rcases hsp : splitFirstNewline x with _ | ⟨pre, post⟩
    · rw [drainBuffer_none hsp]
      simp
    · have hlen := splitFirstNewline_length hsp
      rw [drainBuffer_some hsp,
        drainBuffer_some (splitFirstNewline_append hsp y),
        ih post (by omega) y]
      simp [List.append_assoc]

/-- End-of-stream flush (src/index.tsx 167-169) as a function of the
final buffer contents. -/
def streamFlush (buffer : List Char) : List Json :=
  if (trim buffer).isEmpty then [] else (tryParseAndDisplay (trim buffer)).1

theorem streamLoop_concat : ∀ (cs : List (List Char)) (b : List Char),
    '\n' ∉ b →
    streamLoop b cs =
      (drainBuffer (b ++ joinChunks cs)).1 ++
        streamFlush (drainBuffer (b ++ joinChunks cs)).2 := by
  intro cs
  induction cs with
  | nil =>
    intro b hb
    rw [streamLoop, joinChunks, List.append_nil,
      drainBuffer_none (splitFirstNewline_of_not_mem hb)]
    rfl
  | cons c rest ih =>
    intro b hb
    rcases hstep : streamStep b c with ⟨rs, b2⟩
    have hb2 : '\n' ∉ b2 := by
      have hnn := drainBuffer_no_newline (b ++ c).length (b ++ c) (Nat.le_refl _)
      unfold streamStep at hstep
      rw [hstep] at hnn
      exact hnn
    simp only [streamLoop, hstep]
    rw [ih b2 hb2]
    unfold streamStep at hstep
    rw [joinChunks,
      show b ++ (c ++ joinChunks rest) = (b ++ c) ++ joinChunks rest from
        (List.append_assoc b c (joinChunks rest)).symm,
      drainBuffer_append (b ++ c).length (b ++ c) (Nat.le_refl _) (joinChunks rest),
      hstep]
    simp [List.append_assoc]

theorem streamLoop_records_flush : ∀ (cs : List (List Char)) (b : List Char),
    streamLoop b cs =
      streamLoopRecords b cs ++ streamFlush (streamFinalBuffer b cs) := by
  intro cs
  induction cs with
  | nil =>
    intro b
    rw [streamLoop, streamLoopRecords, streamFinalBuffer]
    rfl
  | cons c rest ih =>
    intro b
    rcases hstep : streamStep b c with ⟨rs, b2⟩
    simp only [streamLoop, streamLoopRecords, streamFinalBuffer, hstep]
    rw [ih b2, List.append_assoc]

/-! Decomposition facts: every parser returns a suffix of its input,
and the consumed part can be made explicit. -/

theorem head?_eq_cons {l : List Char} {a : Char} (h : l.head? = some a) :
    l = a :: l.tail := by
  cases l with
  | nil => cases h
  | cons x t =>
    injection h with h1
    subst h1
    rfl

theorem parseStringBody_decomp : ∀ (f : Nat) (s out r : List Char),
    parseStringBody f s = some (out, r) → ∃ p, s = p ++ r := by
  intro f
  induction f with
  | zero => intro s out r h; simp [parseStringBody] at h
  | succ f ih =>
    intro s out r h
    cases s with
    | nil => simp [parseStringBody] at h
    | cons c cs =>
      simp only [parseStringBody] at h
      split at h
      · injection h with h
        injection h with h1 h2
        subst h2
        exact ⟨[c], rfl⟩
      · split at h
        · split at h
          · cases h
          · next e cs2 =>
            split at h
            · split at h
              · next a1 a2 a3 a4 cs3 =>
                split at h
                · split at h
                  · next tail rest heq =>
                    injection h with h
                    injection h with h1 h2
                    subst h2
                    obtain ⟨p, hp⟩ := ih _ _ _ heq
                    exact ⟨c :: e :: a1 :: a2 :: a3 :: a4 :: p, by simp [hp]⟩
                  · cases h
                · cases h
              · cases h
            · split at h
              · split at h
                · next tail rest heq =>
                  injection h with h
                  injection h with h1 h2
                  subst h2
                  obtain ⟨p, hp⟩ := ih _ _ _ heq
                  exact ⟨c :: e :: p, by simp [hp]⟩
                · cases h
              · cases h
        · split at h
          · cases h
          · split at h
            · next tail rest heq =>
              injection h with h
              injection h with h1 h2
              subst h2
              obtain ⟨p, hp⟩ := ih _ _ _ heq
              exact ⟨c :: p, by simp [hp]⟩
            · cases h

theorem takeDigits_decomp : ∀ (s : List Char) (ds : List Nat) (r : List Char),
    takeDigits s = (ds, r) → ∃ p, s = p ++ r := by
  intro s
  induction s with
  | nil =>
    intro ds r h
    injection h with h1 h2
    subst h2
    exact ⟨[], rfl⟩
  | cons c cs ih =>
    intro ds r h
    simp only [takeDigits] at h
    split at h
    · injection h with h1 h2
      subst h2
      obtain ⟨p, hp⟩ := ih (takeDigits cs).1 (takeDigits cs).2 rfl
      exact ⟨c :: p, by rw [List.cons_append, ← hp]⟩
    · injection h with h1 h2
      subst h2
      exact ⟨[], rfl⟩

theorem parseSign_decomp {s : List Char} {neg : Bool} {r : List Char}
    (h : parseSign s = (neg, r)) : ∃ p, s = p ++ r := by
  cases s with
  | nil =>
    simp only [parseSign] at h
    injection h with h1 h2
    subst h2
    exact ⟨[], rfl⟩
  | cons c t =>
    simp only [parseSign] at h
    split at h
    · injection h with h1 h2
      subst h2
      exact ⟨[c], rfl⟩
    · injection h with h1 h2
      subst h2
      exact ⟨[], rfl⟩

theorem parseIntDigits_decomp {s : List Char} {ds : List Nat} {r : List Char}
    (h : parseIntDigits s = some (ds, r)) : ∃ p, s = p ++ r := by
  cases s with
  | nil => simp [parseIntDigits] at h
  | cons c t =>
    simp only [parseIntDigits] at h
    split at h
    · injection h with h
      injection h with h1 h2
      subst h2
      exact ⟨[c], rfl⟩
    · split at h
      · cases h
      · next ds2 r2 heq =>
        injection h with h
        injection h with h1 h2
        subst h2
        exact takeDigits_decomp _ _ _ heq

theorem parseFrac_decomp {s : List Char} {ds : List Nat} {r : List Char}
    (h : parseFrac s = (ds, r)) : ∃ p, s = p ++ r := by
  cases s with
  | nil =>
    simp only [parseFrac] at h
    injection h with h1 h2
    subst h2
    exact ⟨[], rfl⟩
  | cons c t =>
    simp only [parseFrac] at h
    split at h
    · split at h
      · injection h with h1 h2
        subst h2
        exact ⟨[], rfl⟩
      · next ds2 r2 heq =>
        injection h with h1 h2
        subst h2
        obtain ⟨p, hp⟩ := takeDigits_decomp _ _ _ heq
        exact ⟨c :: p, by rw [List.cons_append, ← hp]⟩
    · injection h with h1 h2
      subst h2
      exact ⟨[], rfl⟩

theorem parseExpDigits_decomp {sgn : Int} {u : List Char} {v : Int} {r : List Char}
    (h : parseExpDigits sgn u = some (v, r)) : ∃ p, u = p ++ r := by
  simp only [parseExpDigits] at h
  split at h
  · cases h
  · next ds2 r2 heq =>
    injection h with h
    injection h with h1 h2
    subst h2
    exact takeDigits_decomp _ _ _ heq

theorem parseExpAfterE_decomp {t : List Char} {v : Int} {r : List Char}
    (h : parseExpAfterE t = some (v, r)) : ∃ p, t = p ++ r := by
  cases t with
  | nil =>
    simp only [parseExpAfterE] at h
    exact parseExpDigits_decomp h
  | cons c u =>
    simp only [parseExpAfterE] at h
    split at h
    · obtain ⟨p, hp⟩ := parseExpDigits_decomp h
      exact ⟨c :: p, by rw [List.cons_append, ← hp]⟩
    · split at h
      · obtain ⟨p, hp⟩ := parseExpDigits_decomp h
        exact ⟨c :: p, by rw [List.cons_append, ← hp]⟩
      · exact parseExpDigits_decomp h

theorem parseExp_decomp {s : List Char} {v : Int} {r : List Char}
    (h : parseExp s = (v, r)) : ∃ p, s = p ++ r := by
  cases s with
  | nil =>
    simp only [parseExp] at h
    injection h with h1 h2
    subst h2
    exact ⟨[], rfl⟩
  | cons c t =>
    simp only [parseExp] at h
    split at h
    · split at h
      · next v2 r2 heq =>
        injection h with h1 h2
        subst h2
        obtain ⟨p, hp⟩ := parseExpAfterE_decomp heq
        exact ⟨c :: p, by rw [List.cons_append, ← hp]⟩
      · injection h with h1 h2
        subst h2
        exact ⟨[], rfl⟩
    · injection h with h1 h2
      subst h2
      exact ⟨[], rfl⟩

theorem parseNumber_decomp {s : List Char} {v : Json} {r : List Char}
    (h : parseNumber s = some (v, r)) : ∃ p, s = p ++ r := by
  obtain ⟨neg, s1, hsign⟩ : ∃ a b, parseSign s = (a, b) := ⟨_, _, rfl⟩
  simp only [parseNumber, hsign] at h
  split at h
  · cases h
  · next intDs s2 heq2 =>
    obtain ⟨fr, s3, hfrac⟩ : ∃ a b, parseFrac s2 = (a, b) := ⟨_, _, rfl⟩
    obtain ⟨ev, s4, hexp⟩ : ∃ a b, parseExp s3 = (a, b) := ⟨_, _, rfl⟩
    rw [hfrac, hexp] at h
    injection h with h
    injection h with h1 h2
    subst h2
    obtain ⟨p1, hp1⟩ := parseSign_decomp hsign
    obtain ⟨p2, hp2⟩ := parseIntDigits_decomp heq2
    obtain ⟨p3, hp3⟩ := parseFrac_decomp hfrac
    obtain ⟨p4, hp4⟩ := parseExp_decomp hexp
    refine ⟨p1 ++ (p2 ++ (p3 ++ p4)), ?_⟩
    rw [hp1, hp2, hp3, hp4]
    simp [List.append_assoc]

theorem parseNumber_shape {s : List Char} {v : Json} {r : List Char}
    (h : parseNumber s = some (v, r)) :
    ∃ ng m ex, v = Json.num ng m ex := by
  simp only [parseNumber] at h
  split at h
  · cases h
  · injection h with h
    injection h with h1 h2
    exact ⟨_, _, _, h1.symm⟩

/-- Joint decomposition for the mutual parsers, by induction on fuel:
every returned rest is a suffix of the input; a parsed object starts at
an opening brace and its consumed text ends with the closing brace; a
member list consumes up to and including the closing brace. -/
theorem parse_decomp : ∀ fuel : Nat,
    (∀ s v r, parseElement fuel s = some (v, r) → ∃ p, s = p ++ r) ∧
    (∀ s v r, parseRawValue fuel s = some (v, r) →
      (∃ p, s = p ++ r) ∧
        ∀ ms, v = Json.obj ms → s.head? = some '{' ∧ ∃ p, s = p ++ '}' :: r) ∧
    (∀ s vs r, parseArrItems fuel s = some (vs, r) → ∃ p, s = p ++ r) ∧
    (∀ s ms r, parseObjMembers fuel s = some (ms, r) → ∃ p, s = p ++ '}' :: r) := by
  intro fuel
  induction fuel with
  | zero =>
    refine ⟨fun s v r h => ?_, fun s v r h => ?_, fun s vs r h => ?_,
      fun s ms r h => ?_⟩
    · simp [parseElement] at h
    · simp [parseRawValue] at h
    · simp [parseArrItems] at h
    · simp [parseObjMembers] at h
  | succ fuel ih =>
    obtain ⟨ihE, ihR, ihA, ihM⟩ := ih
    refine ⟨fun s v r h => ?_, fun s v r h => ?_, fun s vs r h => ?_,
      fun s ms r h => ?_⟩
    · -- parseElement
      simp only [parseElement] at h
      split at h
      · next v0 r0 heq =>
        injection h with h
        injection h with h1 h2
        subst h2
        obtain ⟨p2, hp2⟩ := (ihR _ _ _ heq).1
        obtain ⟨w1, hw1⟩ := skipWs_decomp s
        obtain ⟨w3, hw3⟩ := skipWs_decomp r0
        refine ⟨w1 ++ (p2 ++ w3), ?_⟩
        conv_lhs => rw [hw1, hp2, hw3]
        simp [List.append_assoc]
      · cases h
    · -- parseRawValue
      simp only [parseRawValue] at h
      split at h
      · cases h
      · next c rest =>
        split at h
        · -- c = left brace
          next hc =>
            subst hc
            split at h
            · -- empty object
              next hh =>
                injection h with h
                injection h with h1 h2
                subst h2
                have hcons := head?_eq_cons hh
                obtain ⟨w, hw⟩ := skipWs_decomp rest
                constructor
                · refine ⟨'{' :: w ++ ['}'], ?_⟩
                  conv_lhs => rw [hw, hcons]
                  simp
                · intro ms hv
                  refine ⟨rfl, '{' :: w, ?_⟩
                  conv_lhs => rw [hw, hcons]
                  simp
            · split at h
              · next ms2 r2 heq =>
                injection h with h
                injection h with h1 h2
                subst h2
                obtain ⟨p, hp⟩ := ihM _ _ _ heq
                constructor
                · refine ⟨'{' :: p ++ ['}'], ?_⟩
                  conv_lhs => rw [hp]
                  simp
                · intro ms hv
                  refine ⟨rfl, '{' :: p, ?_⟩
                  conv_lhs => rw [hp]
                  simp
              · cases h
        · split at h
          · -- c = left bracket
            next hc =>
              split at h
              · next hh =>
                injection h with h
                injection h with h1 h2
                subst h2
                subst h1
                have hcons := head?_eq_cons hh
                obtain ⟨w, hw⟩ := skipWs_decomp rest
                refine ⟨⟨c :: w ++ [']'], ?_⟩, fun ms hv => Json.noConfusion hv⟩
                conv_lhs => rw [hw, hcons]
                simp
              · split at h
                · next vs2 r2 heq =>
                  injection h with h
                  injection h with h1 h2
                  subst h2
                  subst h1
                  obtain ⟨p, hp⟩ := ihA _ _ _ heq
                  refine ⟨⟨c :: p, ?_⟩, fun ms hv => Json.noConfusion hv⟩
                  rw [List.cons_append, ← hp]
                · cases h
          · split at h
            · -- c = quote
              split at h
              · next cs2 r2 heq =>
                injection h with h
                injection h with h1 h2
                subst h2
                subst h1
                obtain ⟨p, hp⟩ := parseStringBody_decomp _ _ _ _ heq
                refine ⟨⟨c :: p, ?_⟩, fun ms hv => Json.noConfusion hv⟩
                rw [List.cons_append, ← hp]
              · cases h
            · split at h
              · -- true literal
                next hpre =>
                  injection h with h
                  injection h with h1 h2
                  subst h2
                  subst h1
                  have ht := List.prefix_iff_eq_append.mp
                    (List.isPrefixOf_iff_prefix.mp hpre)
                  exact ⟨⟨_, ht.symm⟩, fun ms hv => Json.noConfusion hv⟩
              · split at h
                · -- false literal
                  next hpre =>
                    injection h with h
                    injection h with h1 h2
                    subst h2
                    subst h1
                    have ht := List.prefix_iff_eq_append.mp
                      (List.isPrefixOf_iff_prefix.mp hpre)
                    exact ⟨⟨_, ht.symm⟩, fun ms hv => Json.noConfusion hv⟩
                · split at h
                  · -- null literal
                    next hpre =>
                      injection h with h
                      injection h with h1 h2
                      subst h2
                      subst h1
                      have ht := List.prefix_iff_eq_append.mp
                        (List.isPrefixOf_iff_prefix.mp hpre)
                      exact ⟨⟨_, ht.symm⟩, fun ms hv => Json.noConfusion hv⟩
                  · -- number
                    obtain ⟨ng, m, ex, hshape⟩ := parseNumber_shape h
                    subst hshape
                    exact ⟨parseNumber_decomp h,
                      fun ms hv => Json.noConfusion hv⟩
    · -- parseArrItems
      simp only [parseArrItems] at h
      split at h
      · cases h
      · next v0 r0 heq =>
        split at h
        · next c r2 =>
          split at h
          · split at h
            · next vs2 r3 heq2 =>
              injection h with h
              injection h with h1 h2
              subst h2
              obtain ⟨p1, hp1⟩ := ihE _ _ _ heq
              obtain ⟨p2, hp2⟩ := ihA _ _ _ heq2
              refine ⟨p1 ++ (c :: p2), ?_⟩
              conv_lhs => rw [hp1, hp2]
              simp [List.append_assoc]
            · cases h
          · split at h
            · injection h with h
              injection h with h1 h2
              subst h2
              obtain ⟨p1, hp1⟩ := ihE _ _ _ heq
              refine ⟨p1 ++ [c], ?_⟩
              conv_lhs => rw [hp1]
              simp [List.append_assoc]
            · cases h
        · cases h
    · -- parseObjMembers
      simp only [parseObjMembers] at h
      split at h
      · next c rest heqs =>
        split at h
        · next hc =>
          split at h
          · next key r1 heq1 =>
            split at h
            · next c2 r2 heq2 =>
              split at h
              · next hc2 =>
                split at h
                · cases h
                · next v0 r3 heq3 =>
                  split at h
                  · next c3 r4 =>
                    split at h
                    · next hc3 =>
                      split at h
                      · next ms2 r5 heq4 =>
                        injection h with h
                        injection h with h1 h2
                        subst h2
                        obtain ⟨w, hw⟩ := skipWs_decomp s
                        obtain ⟨p1, hp1⟩ := parseStringBody_decomp _ _ _ _ heq1
                        obtain ⟨w2, hw2⟩ := skipWs_decomp r1
                        obtain ⟨p3, hp3⟩ := ihE _ _ _ heq3
                        obtain ⟨p4, hp4⟩ := ihM _ _ _ heq4
                        refine ⟨w ++ (c :: (p1 ++ (w2 ++ (c2 :: (p3 ++ (c3 :: p4)))))), ?_⟩
                        conv_lhs => rw [hw, heqs, hp1, hw2, heq2, hp3, hp4]
                        simp [List.append_assoc]
                      · cases h
                    · split at h
                      · next hc3 =>
                        subst hc3
                        injection h with h
                        injection h with h1 h2
                        subst h2
                        obtain ⟨w, hw⟩ := skipWs_decomp s
                        obtain ⟨p1, hp1⟩ := parseStringBody_decomp _ _ _ _ heq1
                        obtain ⟨w2, hw2⟩ := skipWs_decomp r1
                        obtain ⟨p3, hp3⟩ := ihE _ _ _ heq3
                        refine ⟨w ++ (c :: (p1 ++ (w2 ++ (c2 :: p3)))), ?_⟩
                        conv_lhs => rw [hw, heqs, hp1, hw2, heq2, hp3]
                        simp [List.append_assoc]
                      · cases h
                  · cases h
              · cases h
            · cases h
          · cases h
        · cases h
      · cases h

theorem getLast?_mem_of_ne_nil : ∀ (l : List Char), l ≠ [] →
    ∃ c, l.getLast? = some c ∧ c ∈ l := by
  intro l
  induction l with
  | nil => intro h; exact absurd rfl h
  | cons a t ih =>
    intro _
    cases t with
    | nil => exact ⟨a, rfl, List.mem_singleton.mpr rfl⟩
    | cons b u =>
      obtain ⟨c, hc, hm⟩ := ih (by simp)
      exact ⟨c, by rw [List.getLast?_cons_cons]; exact hc,
        List.mem_cons_of_mem a hm⟩

/-- A trimmed line that JSON.parse accepts as an object must start with
the opening brace and end with the closing brace: whitespace inside the
JSON element is JSON whitespace, which trim would have removed at either
end. -/
theorem jsonParse_obj_braces {line : List Char} {ms : List (List Char × Json)}
    (htrim : trim line = line)
    (h : jsonParse line = Except.ok (Json.obj ms)) :
    line.head? = some '{' ∧ line.getLast? = some '}' := by
  simp only [jsonParse] at h
  split at h
  case h_2 => cases h
  case h_1 v heq =>
    injection h with h1
    subst h1
    obtain ⟨F, hF⟩ : ∃ k, 4 * line.length + 8 = k + 1 :=
      ⟨4 * line.length + 7, by omega⟩
    rw [hF] at heq
    simp only [parseElement] at heq
    split at heq
    case h_2 => cases heq
    case h_1 v0 r0 heq2 =>
      injection heq with heq
      injection heq with h1 h2
      have hskip : skipWs line = line :=
        skipWs_eq_self (fun c hc => trim_head_not_ws (htrim.symm ▸ hc))
      rw [hskip] at heq2
      obtain ⟨hE, hR, hA, hM⟩ := parse_decomp F
      obtain ⟨hhead, p, hp⟩ := (hR _ _ _ heq2).2 ms h1
      refine ⟨hhead, ?_⟩
      cases hr0 : r0 with
      | nil =>
        subst hr0
        rw [hp]
        exact List.getLast?_concat p
      | cons a t =>
        exfalso
        have hws : ∀ c ∈ r0, jsonWhitespace c = true := skipWs_nil_ws h2
        obtain ⟨c, hc, hm⟩ := getLast?_mem_of_ne_nil r0 (by rw [hr0]; simp)
        have hlinelast : line.getLast? = some c := by
          rw [hp, List.getLast?_append]
          have : ('}' :: r0).getLast? = some c := by
            rw [hr0, List.getLast?_cons_cons, ← hr0]
            exact hc
          rw [this]
          rfl
        have hnw : jsWhitespace c = false :=
          trim_getLast_not_ws (htrim.symm ▸ hlinelast)
        rw [jsonWhitespace_imp c (hws c hm)] at hnw
        cases hnw

/-- Example line of the C1 claim: a JSON object missing the category
field. -/
def lineMissingCategory : List Char := "\x7b\"term\":\"x\"\x7d".toList

/-- C1: for every candidate line handed to the decode step (such lines
are always trimmed by the loop, hence the hypothesis), a record is
surfaced to the result sink if and only if the line parses as a JSON
object whose term and category members are truthy, which for the string
fields of the documented schema means present and non-empty. In
particular a line missing the category field yields zero records, and
incomplete or invalid lines yield zero records without any user-facing
error. -/
theorem spec_C1 (line : List Char) (htrim : trim line = line) :
    (tryParseAndDisplay line).1 ≠ [] ↔
      ∃ ms, jsonParse line = Except.ok (Json.obj ms) ∧
        jsTruthyOpt (lookupLast ms termKey) = true ∧
        jsTruthyOpt (lookupLast ms categoryKey) = true := by
  constructor
  · intro hne
    cases hbool : (startsWithBrace line && endsWithBrace line) with
    | false =>
      exact absurd (by simp [tryParseAndDisplay, tryParseBody, hbool]) hne
    | true =>
      have hsw := hbool
      rw [Bool.and_eq_true] at hbool
      have hhead : line.head? = some '{' := of_decide_eq_true hbool.1
      have hnil : line.isEmpty = false := by
        cases line with
        | nil => cases hhead
        | cons a t => rfl
      cases hparse0 : jsonParse line with
      | error e =>
        exact absurd
          (by simp [tryParseAndDisplay, tryParseBody, hsw, hnil, hparse0]) hne
      | ok item =>
        cases item with
        | null =>
          exact absurd (by
            simp [tryParseAndDisplay, tryParseBody, hsw, hnil, hparse0,
              jsMember]) hne
        | bool b =>
          exact absurd (by
            simp [tryParseAndDisplay, tryParseBody, hsw, hnil, hparse0,
              jsMember, jsTruthyOpt]) hne
        | num ng m ex =>
          exact absurd (by
            simp [tryParseAndDisplay, tryParseBody, hsw, hnil, hparse0,
              jsMember, jsTruthyOpt]) hne
        | str s2 =>
          exact absurd (by
            simp [tryParseAndDisplay, tryParseBody, hsw, hnil, hparse0,
              jsMember, jsTruthyOpt]) hne
        | arr xs =>
          exact absurd (by
            simp [tryParseAndDisplay, tryParseBody, hsw, hnil, hparse0,
              jsMember, jsTruthyOpt]) hne
        | obj ms =>
          cases htm : jsTruthyOpt (lookupLast ms termKey) with
          | false =>
            exact absurd (by
              simp [tryParseAndDisplay, tryParseBody, hsw, hnil, hparse0,
                jsMember, htm]) hne
          | true =>
            cases hcm : jsTruthyOpt (lookupLast ms categoryKey) with
            | false =>
              exact absurd (by
                simp [tryParseAndDisplay, tryParseBody, hsw, hnil, hparse0,
                  jsMember, htm, hcm]) hne
            | true => exact ⟨ms, rfl, htm, hcm⟩
  · rintro ⟨ms, hparse, htm, hcm⟩
    obtain ⟨hhead, hlast⟩ := jsonParse_obj_braces htrim hparse
    have hsw : (startsWithBrace line && endsWithBrace line) = true := by
      simp [startsWithBrace, endsWithBrace, hhead, hlast]
    have hnil : line.isEmpty = false := by
      cases line with
      | nil => cases hhead
      | cons a t => rfl
    simp [tryParseAndDisplay, tryParseBody, hsw, hnil, hparse, jsMember,
      htm, hcm]

/-- Witness for C1 at the example line from the claim: the line equals its
trim, it yields zero records, and the equivalence holds for it. -/
theorem spec_C1_witness :
    trim lineMissingCategory = lineMissingCategory ∧
    (tryParseAndDisplay lineMissingCategory).1 = [] ∧
    ((tryParseAndDisplay lineMissingCategory).1 ≠ [] ↔
      ∃ ms, jsonParse lineMissingCategory = Except.ok (Json.obj ms) ∧
        jsTruthyOpt (lookupLast ms termKey) = true ∧
        jsTruthyOpt (lookupLast ms categoryKey) = true) :=
  ⟨by decide, rfl, spec_C1 _ (by decide)⟩

/-- A line that passes the brace filter but is not valid JSON. -/
def lineBadJson : List Char := "\x7b[\x7d".toList

/-- The truncated example line of the spec: an object with no closing
brace. -/
def lineUnclosed : List Char := "\x7b\"term\": \"x\"".toList

/-- C4: the decode step never raises to the caller. The first part
states that tryParseAndDisplay always returns a value: the catch inside
tryParseBody absorbs every thrown decode error. The second part states
that on decode failure the line is discarded (no record) and logged
(one warning), and since the function is deterministic, re-running it
on the same failed line discards it again. -/
theorem spec_C4 (line : List Char) :
    (∃ out, tryParseAndDisplay line = out) ∧
    (∀ e : Unit, tryParseBody line = Except.error e →
      tryParseAndDisplay line = ([], [line])) := by
  refine ⟨⟨_, rfl⟩, fun e he => ?_⟩
  simp [tryParseAndDisplay, he]

/-- Witness for C4: a brace-delimited line that fails JSON decoding is
discarded and logged, and the unclosed-brace example from the claim is
discarded on every run. -/
theorem spec_C4_witness :
    tryParseBody lineBadJson = Except.error () ∧
    tryParseAndDisplay lineBadJson = ([], [lineBadJson]) ∧
    tryParseAndDisplay lineUnclosed = ([], []) ∧
    tryParseAndDisplay lineUnclosed = ([], []) :=
  ⟨rfl, (spec_C4 lineBadJson).2 () rfl, rfl, rfl⟩

/-- C9: a non-empty trimmed line that does not both start with an
opening brace and end with a closing brace yields zero records and zero
warnings (silently discarded by the brace filter before any JSON
decoding); by contrast a brace-delimited line that fails JSON decoding
yields zero records and one logged warning. -/
theorem spec_C9 :
    (∀ line : List Char, trim line = line → line ≠ [] →
      (startsWithBrace line && endsWithBrace line) = false →
      tryParseAndDisplay line = ([], [])) ∧
    (∀ line : List Char,
      (startsWithBrace line && endsWithBrace line) = true →
      jsonParse line = Except.error () →
      tryParseAndDisplay line = ([], [line])) := by
  constructor
  · intro line _ _ hb
    simp [tryParseAndDisplay, tryParseBody, hb]
  · intro line hb hparse
    have hhead : line.head? = some '{' :=
      of_decide_eq_true ((Bool.and_eq_true _ _ ▸ hb).1)
    have hnil : line.isEmpty = false := by
      cases line with
      | nil => cases hhead
      | cons a t => rfl
    simp [tryParseAndDisplay, tryParseBody, hb, hnil, hparse]

/-- Witness for C9: a plain word is dropped with no warning, while a
brace-delimited junk line is dropped with a warning. -/
theorem spec_C9_witness :
    tryParseAndDisplay ("abc".toList) = ([], []) ∧
    tryParseAndDisplay ("\x7b,\x7d".toList) = ([], ["\x7b,\x7d".toList]) :=
  ⟨spec_C9.1 _ (by decide) (by decide) (by decide),
    spec_C9.2 _ (by decide) rfl⟩

/-- C10: the inner newline-scanning loop terminates because each
extraction strictly shortens the buffer, and when the loop exits the
buffer holds no newline character. -/
theorem spec_C10 :
    (∀ buf pre post : List Char, splitFirstNewline buf = some (pre, post) →
      post.length < buf.length) ∧
    (∀ buf : List Char, '\n' ∉ (drainBuffer buf).2) :=
  ⟨fun _ _ _ h => splitFirstNewline_length h,
    fun buf => drainBuffer_no_newline buf.length buf (Nat.le_refl _)⟩

/-- Witness for C10 at a concrete buffer. -/
theorem spec_C10_witness :
    splitFirstNewline ("ab\ncd".toList) = some ("ab".toList, "cd".toList) ∧
    ("cd".toList).length < ("ab\ncd".toList).length ∧
    '\n' ∉ (drainBuffer ("x\ny".toList)).2 :=
  ⟨rfl, spec_C10.1 _ _ _ rfl, spec_C10.2 _⟩

/-- C3: when the stream ends with the buffer still holding
non-whitespace content, the whole run emits exactly the loop records
followed by one more decode of the trimmed remainder, so a final record
without a trailing newline is still emitted. -/
theorem spec_C3 (chunks : List (List Char))
    (h : trim (streamFinalBuffer [] chunks) ≠ []) :
    handleAnalyzeStream chunks =
      streamLoopRecords [] chunks ++
        (tryParseAndDisplay (trim (streamFinalBuffer [] chunks))).1 := by
  rw [handleAnalyzeStream, streamLoop_records_flush]
  congr 1
  simp [streamFlush, List.isEmpty_iff, h]

/-- A complete record line with no trailing newline, as a single chunk. -/
def finalChunk : List Char := "\x7b\"term\":\"a\",\"category\":\"b\"\x7d".toList

/-- Witness for C3: a one-chunk stream with no trailing newline leaves
everything in the buffer, and the record is still emitted at stream
end. -/
theorem spec_C3_witness :
    trim (streamFinalBuffer [] [finalChunk]) ≠ [] ∧
    handleAnalyzeStream [finalChunk] =
      streamLoopRecords [] [finalChunk] ++
        (tryParseAndDisplay (trim (streamFinalBuffer [] [finalChunk]))).1 ∧
    (handleAnalyzeStream [finalChunk]).length = 1 :=
  ⟨by decide, spec_C3 _ (by decide), rfl⟩

/-- C2: for a fixed complete streamed text, any two chunkings whose
split points fall immediately after a newline character produce the same
emitted record sequence. -/
theorem spec_C2 (cs1 cs2 : List (List Char))
    (hsplit1 : ∀ c ∈ cs1.dropLast, c.getLast? = some '\n')
    (hsplit2 : ∀ c ∈ cs2.dropLast, c.getLast? = some '\n')
    (hjoin : joinChunks cs1 = joinChunks cs2) :
    handleAnalyzeStream cs1 = handleAnalyzeStream cs2 := by
  unfold handleAnalyzeStream
  rw [streamLoop_concat cs1 [] (List.not_mem_nil _),
    streamLoop_concat cs2 [] (List.not_mem_nil _), hjoin]

/-- One-chunk and two-chunk newline-aligned splittings of the same
text. -/
def chunksWhole : List (List Char) := ["ab\ncd\n".toList]

def chunksSplit : List (List Char) := ["ab\n".toList, "cd\n".toList]

/-- Witness for C2 at two concrete newline-aligned chunkings. -/
theorem spec_C2_witness :
    (∀ c ∈ chunksWhole.dropLast, c.getLast? = some '\n') ∧
    (∀ c ∈ chunksSplit.dropLast, c.getLast? = some '\n') ∧
    joinChunks chunksWhole = joinChunks chunksSplit ∧
    handleAnalyzeStream chunksWhole = handleAnalyzeStream chunksSplit :=
  ⟨by decide, by decide, by decide,
    spec_C2 _ _ (by decide) (by decide) (by decide)⟩

/-- C8: the output of the buffering loop depends only on the concatenation of
the chunks: any chunking of a fixed text, including splits falling
mid-line or mid-object, emits exactly what processing the whole text as
one chunk emits. -/
theorem spec_C8 (chunks : List (List Char)) :
    handleAnalyzeStream chunks = handleAnalyzeStream [joinChunks chunks] := by
  unfold handleAnalyzeStream
  rw [streamLoop_concat chunks [] (List.not_mem_nil _),
    streamLoop_concat [joinChunks chunks] [] (List.not_mem_nil _)]
  simp [joinChunks]

/-- Test for the shape the spec calls the expected JSON shape: a JSON
object (whose keys may then be missing and defaulted). -/
def isJsonObject : Json → Bool
  | Json.obj _ => true
  | _ => false

/-- Counterexample for C5 as stated. The text null parses as JSON yet
the resolver raises (property access on null throws), contradicting
that a parse success always defaults missing keys rather than raising;
and the text 5 is not the expected JSON shape yet the resolver succeeds
with all defaults, contradicting that the resolver fails exactly when
the cleaned text is not parseable as the expected shape. -/
theorem spec_C5_counterexample :
    jsonParse (cleanJsonText ("null".toList)) = Except.ok Json.null ∧
    getBusinessContext (Except.ok ("null".toList)) = Except.error () ∧
    jsonParse (cleanJsonText ("5".toList)) = Except.ok (Json.num false 5 0) ∧
    isJsonObject (Json.num false 5 0) = false ∧
    getBusinessContext (Except.ok ("5".toList)) =
      Except.ok { location := Json.str [], competitors := Json.arr []
                , services := Json.arr [] } :=
  ⟨rfl, rfl, rfl, rfl, rfl⟩

/-- C5 as amended: resolve fails exactly when the API call throws, the
fence-stripped trimmed text fails JSON.parse, or it parses to JSON null
(reading a property of null throws); whenever it parses to a non-null
value the resolver succeeds, and each of the location, competitors and
services fields falls back to its empty default when the key is missing
or falsy, rather than raising. -/
theorem spec_C5 :
    (∀ e, getBusinessContext (Except.error e) = Except.error e) ∧
    (∀ t : List Char, jsonParse (cleanJsonText t) = Except.error () →
      getBusinessContext (Except.ok t) = Except.error ()) ∧
    (∀ t : List Char, jsonParse (cleanJsonText t) = Except.ok Json.null →
      getBusinessContext (Except.ok t) = Except.error ()) ∧
    (∀ (t : List Char) (v : Json), jsonParse (cleanJsonText t) = Except.ok v →
      v ≠ Json.null →
      getBusinessContext (Except.ok t) = Except.ok
        { location := jsOrDefault (jsGet v locationKey) (Json.str [])
        , competitors := jsOrDefault (jsGet v competitorsKey) (Json.arr [])
        , services := jsOrDefault (jsGet v servicesKey) (Json.arr []) }) := by
  refine ⟨fun e => rfl, fun t h => ?_, fun t h => ?_, fun t v h hv => ?_⟩
  · simp [getBusinessContext, h]
  · simp [getBusinessContext, h]
  · cases v with
    | null => exact absurd rfl hv
    | bool b => simp [getBusinessContext, h]
    | num ng m ex => simp [getBusinessContext, h]
    | str s2 => simp [getBusinessContext, h]
    | arr xs => simp [getBusinessContext, h]
    | obj ms => simp [getBusinessContext, h]

/-- A fenced response as the context call tends to return it. -/
def fencedResponse : List Char :=
  "\x60\x60\x60json\n\x7b\"location\":\"X\"\x7d\n\x60\x60\x60".toList

/-- Witness for the amended C5: a fenced response whose object carries
only the location key resolves with the other two keys defaulted. -/
theorem spec_C5_witness :
    jsonParse (cleanJsonText fencedResponse) =
      Except.ok (Json.obj [(locationKey, Json.str ['X'])]) ∧
    getBusinessContext (Except.ok fencedResponse) =
      Except.ok { location := Json.str ['X'], competitors := Json.arr []
                , services := Json.arr [] } := by
  refine ⟨rfl, ?_⟩
  have h := (spec_C5).2.2.2 fencedResponse
    (Json.obj [(locationKey, Json.str ['X'])]) rfl
    (fun hh => Json.noConfusion hh)
  rw [h]
  rfl

/-- C6: when a manual location is supplied together with a website URL
whose context resolution succeeded, the manual location overwrites only
the location field; the competitors and services fields keep their
resolved values unchanged. -/
theorem spec_C6 (urlValue manualValue : List Char) (ctx : BusinessContext)
    (hurl : trim urlValue ≠ []) (hman : trim manualValue ≠ []) :
    analyzeContext urlValue manualValue (Except.ok ctx) =
      Except.ok { location := Json.str (trim manualValue)
                , competitors := ctx.competitors
                , services := ctx.services } := by
  have hbool : ∀ l : List Char, l ≠ [] → l.isEmpty = false := by
    intro l hl
    cases hh : l.isEmpty
    · rfl
    · exact absurd (List.isEmpty_iff.mp hh) hl
  have hm : (trim manualValue).isEmpty = false := hbool _ hman
  simp [analyzeContext, hbool _ hurl, hm, jsTruthy]

/-- Witness for C6 at a concrete run: the resolved competitors and
services survive the manual location override. -/
theorem spec_C6_witness :
    trim (" u ".toList) ≠ [] ∧ trim (" LOC ".toList) ≠ [] ∧
    analyzeContext (" u ".toList) (" LOC ".toList)
        (Except.ok ⟨Json.str ("old".toList), Json.arr [Json.str ['c']],
          Json.arr []⟩) =
      Except.ok ⟨Json.str (trim (" LOC ".toList)),
        Json.arr [Json.str ['c']], Json.arr []⟩ :=
  ⟨by decide, by decide, spec_C6 _ _ _ (by decide) (by decide)⟩

/-- C7: the CSV export wraps every data field in double quotes and
doubles internal double quotes: for the two-column header of the claim
and the record with a quote inside its term, the data row is exactly as
claimed, and the whole export is the quoted header line followed by that
row. -/
theorem spec_C7 :
    csvRow ["a\"b".toList, "c".toList] = "\"a\"\"b\",\"c\"".toList ∧
    handleCopyCsv ["term".toList, "category".toList]
        [["a\"b".toList, "c".toList]] =
      "\"term\",\"category\"\n\"a\"\"b\",\"c\"".toList :=
  ⟨rfl, rfl⟩
